import Mathlib

/-!
Shallow embedding of `src/mine/src/main.rs` (a CREATE2 vanity-address miner)
and verification of its specification claims.

Bytes are modelled as `Nat` values below 256, byte strings as `List Nat`,
and machine words as `Nat` reduced modulo the word size where the source
wraps.  The Keccak-256 permutation is embedded in full so that the address
derivation pipeline (`alloy`'s `keccak256` / `Address::create2`) is the real
one from the source, not a stub.
-/

set_option maxRecDepth 100000

/-! ### Byte-string arithmetic -/

/-- Value of a byte string read as a big-endian unsigned integer. -/
def beNat : List Nat → Nat
  | [] => 0
  | b :: bs => b * 256 ^ bs.length + beNat bs

/-- The eight big-endian bytes of a 64-bit word (`u64::to_be_bytes`). -/
def be8 (w : Nat) : List Nat :=
  [w / 2 ^ 56 % 256, w / 2 ^ 48 % 256, w / 2 ^ 40 % 256, w / 2 ^ 32 % 256,
   w / 2 ^ 24 % 256, w / 2 ^ 16 % 256, w / 2 ^ 8 % 256, w % 256]

/-- Lexicographic strict comparison of byte strings; this is the order that
`derive(Ord)` gives alloy's `FixedBytes` / `Address` wrappers. -/
def bytesLt : List Nat → List Nat → Bool
  | [], [] => false
  | [], _ :: _ => true
  | _ :: _, [] => false
  | a :: as, b :: bs => if a < b then true else if b < a then false else bytesLt as bs

/-! ### Keccak-256 (the `keccak256` primitive used by the source) -/

/-- Rotate a 64-bit lane left by `n` (0 ≤ n < 64). -/
def rotl64 (x n : Nat) : Nat := (x <<< n ||| x >>> (64 - n)) % 2 ^ 64

/-- The Keccak state is packed into one 1600-bit number, lane `x + 5*y`
occupying bits `64*(x + 5*y)` up; this is the state read as a little-endian
byte string.  `lane s i` extracts lane `i`. -/
def lane (s : Nat) (i : Nat) : Nat := s >>> (64 * i) % 2 ^ 64

/-- Rebuild a packed state from a per-lane function. -/
def packState (f : Nat → Nat) : Nat :=
  (List.range 25).foldl (fun acc i => acc ||| f i <<< (64 * i)) 0

/-- Keccak θ step. -/
def theta (s : Nat) : Nat :=
  let c : Nat → Nat := fun x =>
    lane s x ^^^ lane s (x + 5) ^^^ lane s (x + 10) ^^^ lane s (x + 15) ^^^ lane s (x + 20)
  let d : Nat → Nat := fun x => c ((x + 4) % 5) ^^^ rotl64 (c ((x + 1) % 5)) 1
  packState fun i => lane s i ^^^ d (i % 5)

/-- Keccak ρ rotation offsets, flattened at index `x + 5*y` and derived the
standard way: walking the π orbit from lane (1, 0), the `t`-th lane visited
rotates by the triangular number `(t+1)(t+2)/2 mod 64`. -/
def rhoOffsets : List Nat :=
  (((List.range 24).foldl (fun st t =>
      ((st.1.2, (2 * st.1.1 + 3 * st.1.2) % 5),
        st.2.set (st.1.1 + 5 * st.1.2) ((t + 1) * (t + 2) / 2 % 64)))
    ((1, 0), List.replicate 25 0))).2

/-- Keccak ρ and π steps combined: destination lane `(X, Y)` receives the
rotation of source lane `(x, y)` with `y = X` and `x = 3*(Y + 2*X) mod 5`. -/
def rhoPi (s : Nat) : Nat :=
  packState fun i =>
    let X := i % 5
    let Y := i / 5
    let j := (3 * (Y + 2 * X)) % 5 + 5 * X
    rotl64 (lane s j) (rhoOffsets.getD j 0)

/-- Keccak χ step (lane complement taken as xor with the 64-bit mask). -/
def chi (s : Nat) : Nat :=
  packState fun i =>
    let x := i % 5
    let y := i / 5
    lane s i ^^^ ((lane s ((x + 1) % 5 + 5 * y) ^^^ (2 ^ 64 - 1)) &&& lane s ((x + 2) % 5 + 5 * y))

/-- The byte LFSR over GF(2)[x]/(x^8 + x^6 + x^5 + x^4 + 1) that generates
the Keccak round-constant bit sequence; `rcState t % 2` is bit `rc(t)`. -/
def rcState : Nat → Nat
  | 0 => 1
  | t + 1 =>
    let r := rcState t
    ((r <<< 1) ^^^ ((r >>> 7) * 0x71)) % 256

/-- Keccak-f[1600] round constants, derived per FIPS 202: round `ir` sets bit
position `2^j − 1` to `rc(j + 7·ir)` for `j = 0…6`.  (The in-file test
vectors for `keccak256` check this derivation end to end.) -/
def keccakRC : List Nat :=
  (List.range 24).map fun ir =>
    (List.range 7).foldl (fun acc j => acc ||| ((rcState (j + 7 * ir) % 2) <<< (2 ^ j - 1))) 0

/-- One Keccak-f round: θ, ρ, π, χ, then ι with round constant `rc`
(lane 0 sits in the low 64 bits, so ι is a plain xor). -/
def keccakRound (s : Nat) (rc : Nat) : Nat := chi (rhoPi (theta s)) ^^^ rc

/-- Round fold of Keccak-f.  The `if` with two identical branches is a
strictness device only: deciding `s' = 0` forces each round's state to a
numeral before the next round starts, which keeps definitional evaluation
shallow; semantically this is just `foldl keccakRound`. -/
def keccakFAux : List Nat → Nat → Nat
  | [], s => s
  | rc :: rcs, s =>
    let t := keccakRound s rc
    if t = 0 then keccakFAux rcs t else keccakFAux rcs t

/-- The Keccak-f[1600] permutation (24 rounds). -/
def keccakF (s : Nat) : Nat := keccakFAux keccakRC s

/-- Value of a byte string read as a little-endian unsigned integer: this is
how a 136-byte rate block lines up with the low 17 lanes of the state. -/
def leNat : List Nat → Nat
  | [] => 0
  | b :: bs => b + 256 * leNat bs

/-- Multi-rate padding for rate 136 (Keccak-256 as used by Ethereum:
domain byte `0x01`, final bit `0x80`). -/
def keccakPad (msg : List Nat) : List Nat :=
  let p := 136 - msg.length % 136
  if p = 1 then msg ++ [0x81]
  else msg ++ 0x01 :: (List.replicate (p - 2) 0 ++ [0x80])

/-- Split a byte string into 136-byte rate blocks; the fuel argument (any
bound on the number of blocks) only makes the recursion structural. -/
def chunksAux : Nat → List Nat → List (List Nat)
  | 0, _ => []
  | fuel + 1, l => if l = [] then [] else l.take 136 :: chunksAux fuel (l.drop 136)

/-- Split a byte string into 136-byte rate blocks. -/
def chunks136 (l : List Nat) : List (List Nat) := chunksAux (l.length / 136 + 1) l

/-- Keccak-256 of a byte string: absorb the padded rate blocks (a full
136-byte block xors into the 17 low lanes, which are exactly the low
1088 bits of the packed state), then squeeze 32 output bytes. -/
def keccak256 (msg : List Nat) : List Nat :=
  let s := (chunks136 (keccakPad msg)).foldl (fun st blk => keccakF (st ^^^ leNat blk)) 0
  (List.range 32).map fun i => s >>> (8 * i) % 256

/-! ### Compiled-in constants of the miner -/

/-- `DEPLOYER = 0x4e59b44847b379578588920cA78FbF26c0B4956C`. -/
def DEPLOYER : List Nat :=
  [78, 89, 180, 72, 71, 179, 121, 87, 133, 136, 146, 12, 167, 143, 191, 38, 192, 180, 149, 108]

/-- `UNISWAP_FACTORY = 0x5C69bEe701ef814a2B6a3EDD4B1652CB9cc5aA6f`. -/
def UNISWAP_FACTORY : List Nat :=
  [92, 105, 190, 231, 1, 239, 129, 74, 43, 106, 62, 221, 75, 22, 82, 203, 156, 197, 170, 111]

/-- `WETH = 0xC02aaA39b223FE8D0A0e5C4F27eAD9083C756Cc2`. -/
def WETH : List Nat :=
  [192, 42, 170, 57, 178, 35, 254, 141, 10, 14, 92, 79, 39, 234, 217, 8, 60, 117, 108, 194]

/-- `UNISWAP_PAIR_INITCODE_HASH = 0x96e8...845f`. -/
def UNISWAP_PAIR_INITCODE_HASH : List Nat :=
  [150, 232, 172, 66, 119, 25, 143, 248, 182, 247, 133, 71, 138, 169, 163, 159, 64, 60, 183,
   104, 221, 2, 203, 238, 50, 108, 62, 125, 163, 72, 132, 95]

/-- `N_THREADS = 8`. -/
def N_THREADS : Nat := 8

/-- `BATCH_SIZE = 4096`. -/
def BATCH_SIZE : Nat := 4096

/-! ### Address derivation (`Address::create2`) -/

/-- `sender.create2(salt, initcodeHash)`: the last 20 bytes of
`keccak256(0xff ++ sender ++ salt ++ initcodeHash)`. -/
def create2 (sender salt initcodeHash : List Nat) : List Nat :=
  (keccak256 (0xff :: (sender ++ salt ++ initcodeHash))).drop 12

/-! ### The scorer `leading_zeros` (lines 21–34 of the source) -/

/-- `slice::chunks_exact(4)`: complete 4-byte chunks; a short remainder is
dropped, exactly as in Rust. -/
def chunksExact4 : List Nat → List (List Nat)
  | b0 :: b1 :: b2 :: b3 :: rest => [b0, b1, b2, b3] :: chunksExact4 rest
  | _ => []

/-- `u32::from_be_bytes(c.try_into().ok()?)`: `none` exactly when the chunk
does not have 4 bytes. -/
def u32FromBe (c : List Nat) : Option Nat :=
  match c with
  | [b0, b1, b2, b3] => some (((b0 * 256 + b1) * 256 + b2) * 256 + b3)
  | _ => none

/-- Bit length of `n` computed with structural fuel (`size32 f n = Nat.size n`
whenever `n < 2 ^ f`; see `size32_eq_size`). -/
def size32 : Nat → Nat → Nat
  | 0, _ => 0
  | f + 1, n => if n = 0 then 0 else size32 f (n / 2) + 1

/-- `u32::leading_zeros` of a value below 2^32, as a bit-length difference. -/
def clz32 (w : Nat) : Nat := 32 - size32 32 w

/-- The chunk loop of `leading_zeros`, with running count `r`. -/
def lzLoop : List (List Nat) → Nat → Option Nat
  | [], r => some r
  | c :: cs, r =>
    match u32FromBe c with
    | none => none
    | some w =>
      let z := clz32 w
      if z < 32 then some (r + z) else lzLoop cs (r + 32)

/-- The scorer `leading_zeros(addr)` from the source. -/
def leading_zeros (b : List Nat) : Option Nat := lzLoop (chunksExact4 b) 0

/-! ### Pair derivation and the acceptance condition (worker loop body) -/

/-- The pair ordering step: `if token_address < WETH { (token_address, WETH) }
else { (WETH, token_address) }`, with alloy's lexicographic byte order. -/
def sortTokens (t : List Nat) : List Nat × List Nat :=
  if bytesLt t WETH then (t, WETH) else (WETH, t)

/-- The token address derived from a salt: `DEPLOYER.create2(&salt, &initcode)`. -/
def tokenAddress (initcode salt : List Nat) : List Nat :=
  create2 DEPLOYER salt initcode

/-- The pair address: sort (token, WETH), hash the 40-byte concatenation to get
the pair salt, then `UNISWAP_FACTORY.create2(&pair_salt, &UNISWAP_PAIR_INITCODE_HASH)`. -/
def pairAddress (initcode salt : List Nat) : List Nat :=
  let t := tokenAddress initcode salt
  let p := sortTokens t
  create2 UNISWAP_FACTORY (keccak256 (p.1 ++ p.2)) UNISWAP_PAIR_INITCODE_HASH

/-- The worker's acceptance test `leading_zeros(pair_address)? as usize == target`:
the `?` early-exit on `none` accepts nothing, so acceptance is equality of the
scorer's result with `some target`. -/
def accepted (initcode salt : List Nat) (target : Nat) : Bool :=
  leading_zeros (pairAddress initcode salt) == some target

/-! ### Worker salt state (source lines 67–76 and 105–107) -/

/-- `B256::ZERO`. -/
def zero32 : List Nat := List.replicate 32 0

/-- Write a 64-bit word big-endian into the last 8 bytes of a 32-byte salt
(the `salt_word` view of the last 8 bytes of `salt.0`). -/
def writeLow8 (s : List Nat) (w : Nat) : List Nat := s.take 24 ++ be8 (w % 2 ^ 64)

/-- Worker `i`'s initial salt: `*salt_word = (thread_idx as u64).to_be()`
on a zero salt. -/
def saltInit (i : Nat) : List Nat := writeLow8 zero32 (i % 2 ^ 64)

/-- The stride advance
`*salt_word = u64::from_be(*salt_word).wrapping_add(N_THREADS as u64).to_be()`. -/
def saltStep (s : List Nat) : List Nat :=
  writeLow8 s ((beNat (s.drop 24) + N_THREADS) % 2 ^ 64)

/-- The salt examined by worker `i` at its `k`-th iteration. -/
def saltAt (i : Nat) : Nat → List Nat
  | 0 => saltInit i
  | k + 1 => saltStep (saltAt i k)

/-! ### Workers and coordinator -/

/-- A `Found` result `(salt.0, token_address, pair_address)`. -/
structure Cand where
  salt : List Nat
  token : List Nat
  pair : List Nat
deriving DecidableEq, Repr

/-- Rust's derived lexicographic `Ord` on the result tuple
`(B256, Address, Address)`, each component a fixed byte string. -/
def candLt (a b : Cand) : Bool :=
  bytesLt a.salt b.salt ||
    (a.salt == b.salt && (bytesLt a.token b.token ||
      (a.token == b.token && bytesLt a.pair b.pair)))

/-- The fold underlying `Iterator::min`: keeps the earlier element on ties. -/
def minFrom (m : Cand) : List Cand → Cand
  | [] => m
  | c :: cs => minFrom (if candLt c m then c else m) cs

/-- `results.into_iter().min()`. -/
def minCand : List Cand → Option Cand
  | [] => none
  | c :: cs => some (minFrom c cs)

/-- The candidate worker `i` would return from iteration `k`. -/
def candAt (initcode : List Nat) (i k : Nat) : Cand :=
  { salt := saltAt i k
    token := tokenAddress initcode (saltAt i k)
    pair := pairAddress initcode (saltAt i k) }

/-- One iteration of the worker loop body at salt index `k`: score the derived
pair address; on `none` the `?` operator ends the worker with no result; on a
score equal to the target return the candidate; otherwise continue with
`next`. -/
def scanStep (initcode : List Nat) (target i k : Nat) (next : Option Cand) : Option Cand :=
  (leading_zeros (pairAddress initcode (saltAt i k))).bind
    fun z => if z = target then some (candAt initcode i k) else next

/-- The worker search loop of worker `i` starting at iteration `k`, allowed
`fuel` further iterations before it observes the cancellation flag and breaks
with `none`. -/
def scan (initcode : List Nat) (target i : Nat) : Nat → Nat → Option Cand
  | _, 0 => none
  | k, fuel + 1 => scanStep initcode target i k (scan initcode target i (k + 1) fuel)

/-- Worker `i` under a schedule that lets it complete `cutoff` full batches
before its batch-boundary check observes the cancellation flag: it returns its
earliest match within those batches, else no result.  (A worker whose flag
check never fires is modelled by any `cutoff` past its earliest match.) -/
def workerRun (initcode : List Nat) (target i cutoff : Nat) : Option Cand :=
  scan initcode target i 0 (cutoff * BATCH_SIZE)

/-- A full run under schedule `s` (one cutoff per worker): join all workers in
spawn order, keep the `Found` results, take the minimum tuple. -/
def runModel (initcode : List Nat) (target : Nat) (s : List Nat) : Option Cand :=
  minCand ((List.range N_THREADS).filterMap fun i =>
    workerRun initcode target i (s.getD i 0))

/-- A schedule is realizable only if the run terminates: some worker runs long
enough to produce a `Found` result (that worker's store of the flag is what
lets every other worker observe it; a worker with cutoff 0 is one that was
scheduled only after the flag was already set). -/
def validSchedule (initcode : List Nat) (target : Nat) (s : List Nat) : Bool :=
  s.length == N_THREADS &&
    (List.range N_THREADS).any fun i => (workerRun initcode target i (s.getD i 0)).isSome

/-! ### Pre-spawn argument validation (source lines 40–56) -/

/-- The only validation `main` performs before spawning workers: the
argument-count check (malformed hex or integer input also aborts during
parsing, but the parsed target value itself is never range-checked). -/
def argCountOk (argc : Nat) : Bool := argc == 3

-- scratch (to be removed)
/-- Keccak-256 test vector: the hash of the empty string. -/
example :
    keccak256 [] =
      [197, 210, 70, 1, 134, 247, 35, 60, 146, 126, 125, 178, 220, 199, 3, 192, 229, 0, 182,
       83, 202, 130, 39, 59, 123, 250, 216, 4, 93, 133, 164, 112] := by
  decide

/-- Keccak-256 test vector: the hash of the three bytes of the string abc. -/
example :
    keccak256 [97, 98, 99] =
      [78, 3, 101, 122, 234, 69, 169, 79, 199, 212, 123, 168, 38, 200, 214, 103, 192, 209,
       230, 227, 58, 100, 160, 54, 236, 68, 245, 143, 161, 45, 108, 69] := by
  decide

/-! ### Arithmetic toolbox: big-endian values, lexicographic order, bit length -/

theorem beNat_append (xs ys : List Nat) :
    beNat (xs ++ ys) = beNat xs * 256 ^ ys.length + beNat ys := by
  induction xs with
  | nil => simp [beNat]
  | cons x xs ih =>
    calc beNat ((x :: xs) ++ ys)
        = x * 256 ^ (xs ++ ys).length + beNat (xs ++ ys) := rfl
      _ = x * 256 ^ (xs.length + ys.length) + (beNat xs * 256 ^ ys.length + beNat ys) := by
          rw [ih, List.length_append]
      _ = (x * 256 ^ xs.length + beNat xs) * 256 ^ ys.length + beNat ys := by
          rw [pow_add]; ring
      _ = beNat (x :: xs) * 256 ^ ys.length + beNat ys := rfl

theorem beNat_lt (xs : List Nat) (h : ∀ x ∈ xs, x < 256) : beNat xs < 256 ^ xs.length := by
  induction xs with
  | nil => simp [beNat]
  | cons x xs ih =>
    have hx : x < 256 := h x (by simp)
    have ih' : beNat xs < 256 ^ xs.length := ih fun y hy => h y (by simp [hy])
    have h1 : x * 256 ^ xs.length + beNat xs < (x + 1) * 256 ^ xs.length := by
      calc x * 256 ^ xs.length + beNat xs < x * 256 ^ xs.length + 256 ^ xs.length := by omega
        _ = (x + 1) * 256 ^ xs.length := by ring
    have h2 : (x + 1) * 256 ^ xs.length ≤ 256 * 256 ^ xs.length :=
      Nat.mul_le_mul_right _ (by omega)
    calc beNat (x :: xs) = x * 256 ^ xs.length + beNat xs := rfl
      _ < (x + 1) * 256 ^ xs.length := h1
      _ ≤ 256 * 256 ^ xs.length := h2
      _ = 256 ^ (x :: xs).length := by rw [List.length_cons, pow_succ]; ring

/-- Positional comparison: a smaller leading digit dominates the tail. -/
theorem lt_of_head_lt (x y a b M : Nat) (ha : a < M) (hxy : x < y) :
    x * M + a < y * M + b := by
  calc x * M + a < x * M + M := by omega
    _ = (x + 1) * M := by ring
    _ ≤ y * M := Nat.mul_le_mul_right _ (by omega)
    _ ≤ y * M + b := by omega

theorem beNat_inj (xs : List Nat) : ∀ ys : List Nat, xs.length = ys.length →
    (∀ x ∈ xs, x < 256) → (∀ y ∈ ys, y < 256) →
    beNat xs = beNat ys → xs = ys := by
  induction xs with
  | nil => intro ys hlen _ _ _
           cases ys with
           | nil => rfl
           | cons y ys => simp at hlen
  | cons x xs ih =>
    intro ys hlen hx hy h
    cases ys with
    | nil => simp at hlen
    | cons y ys =>
      have hlen' : xs.length = ys.length := by simpa using hlen
      have hxs : beNat xs < 256 ^ ys.length := by
        rw [← hlen']; exact beNat_lt xs fun a ha => hx a (by simp [ha])
      have hys : beNat ys < 256 ^ ys.length := beNat_lt ys fun a ha => hy a (by simp [ha])
      have e1 : beNat (x :: xs) = x * 256 ^ ys.length + beNat xs := by
        simp only [beNat, hlen']
      have e2 : beNat (y :: ys) = y * 256 ^ ys.length + beNat ys := rfl
      rw [e1, e2] at h
      have hxy : x = y := by
        rcases Nat.lt_trichotomy x y with hlt | heq | hgt
        · exact absurd h (Nat.ne_of_lt (lt_of_head_lt x y _ _ _ hxs hlt))
        · exact heq
        · exact absurd h.symm (Nat.ne_of_lt (lt_of_head_lt y x _ _ _ hys hgt))
      subst hxy
      have htail : beNat xs = beNat ys := by omega
      rw [ih ys hlen' (fun a ha => hx a (by simp [ha])) (fun a ha => hy a (by simp [ha])) htail]

theorem bytesLt_eq_decide (xs : List Nat) : ∀ ys : List Nat, xs.length = ys.length →
    (∀ x ∈ xs, x < 256) → (∀ y ∈ ys, y < 256) →
    bytesLt xs ys = decide (beNat xs < beNat ys) := by
  induction xs with
  | nil => intro ys hlen _ _
           cases ys with
           | nil => simp [bytesLt, beNat]
           | cons y ys => simp at hlen
  | cons x xs ih =>
    intro ys hlen hx hy
    cases ys with
    | nil => simp at hlen
    | cons y ys =>
      have hlen' : xs.length = ys.length := by simpa using hlen
      have hxs : beNat xs < 256 ^ ys.length := by
        rw [← hlen']; exact beNat_lt xs fun a ha => hx a (by simp [ha])
      have hys : beNat ys < 256 ^ ys.length := beNat_lt ys fun a ha => hy a (by simp [ha])
      have e1 : beNat (x :: xs) = x * 256 ^ ys.length + beNat xs := by
        simp only [beNat, hlen']
      have e2 : beNat (y :: ys) = y * 256 ^ ys.length + beNat ys := rfl
      by_cases h1 : x < y
      · have hbe : beNat (x :: xs) < beNat (y :: ys) := by
          rw [e1, e2]; exact lt_of_head_lt x y _ _ _ hxs h1
        simp [bytesLt, h1, hbe]
      · by_cases h2 : y < x
        · have hbe : beNat (y :: ys) < beNat (x :: xs) := by
            rw [e1, e2]; exact lt_of_head_lt y x _ _ _ hys h2
          have hn : ¬ beNat (x :: xs) < beNat (y :: ys) := by omega
          simp [bytesLt, h1, h2, hn]
        · have heq : x = y := by omega
          subst heq
          have := ih ys hlen' (fun a ha => hx a (by simp [ha])) (fun a ha => hy a (by simp [ha]))
          simp only [bytesLt, if_neg h1, this, e1, e2]
          rw [decide_eq_decide]
          omega

theorem bytesLt_irrefl (xs : List Nat) : bytesLt xs xs = false := by
  induction xs with
  | nil => rfl
  | cons x xs ih => simp [bytesLt, ih]

theorem size32_le (f n : Nat) : size32 f n ≤ f := by
  induction f generalizing n with
  | zero => simp [size32]
  | succ f ih =>
    rw [size32]
    split
    · omega
    · have := ih (n / 2); omega

theorem clz32_le (w : Nat) : clz32 w ≤ 32 := Nat.sub_le _ _

theorem size_succ_div (n : Nat) (h : n ≠ 0) : Nat.size n = Nat.size (n / 2) + 1 := by
  by_cases h2 : n / 2 = 0
  · have hn1 : n = 1 := by omega
    simp [hn1, Nat.size_one, Nat.size_zero]
  · set s := Nat.size (n / 2) with hs
    have hspos : 0 < s := Nat.size_pos.mpr (by omega)
    have hup : n / 2 < 2 ^ s := Nat.size_le.mp (le_refl s)
    have hlo : 2 ^ (s - 1) ≤ n / 2 := Nat.lt_size.mp (by omega)
    have hup' : n < 2 ^ (s + 1) := by
      have : n ≤ 2 * (n / 2) + 1 := by omega
      have h2s : 2 * (n / 2) + 1 < 2 * 2 ^ s := by omega
      calc n ≤ 2 * (n / 2) + 1 := this
        _ < 2 * 2 ^ s := h2s
        _ = 2 ^ (s + 1) := by rw [pow_succ]; ring
    have hlo' : 2 ^ s ≤ n := by
      have hstep : 2 ^ s = 2 * 2 ^ (s - 1) := by
        conv_lhs => rw [show s = (s - 1) + 1 by omega]
        rw [pow_succ]; ring
      have : 2 * 2 ^ (s - 1) ≤ 2 * (n / 2) := by omega
      omega
    have hle : Nat.size n ≤ s + 1 := Nat.size_le.mpr hup'
    have hgt : s < Nat.size n := Nat.lt_size.mpr hlo'
    omega

theorem size32_eq_size (f : Nat) : ∀ n : Nat, n < 2 ^ f → size32 f n = Nat.size n := by
  induction f with
  | zero => intro n h
            have : n = 0 := by simpa using h
            simp [this, size32, Nat.size_zero]
  | succ f ih =>
    intro n h
    by_cases h0 : n = 0
    · simp [h0, size32, Nat.size_zero]
    · rw [size32, if_neg h0]
      have hdiv : n / 2 < 2 ^ f := by
        have : 2 ^ (f + 1) = 2 * 2 ^ f := by rw [pow_succ]; ring
        omega
      rw [ih _ hdiv, ← size_succ_div n h0]

/-- Bit length of a product `w * 2 ^ m + v` with `v < 2 ^ m` and `w ≠ 0`. -/
theorem size_mul_pow_add (w v m : Nat) (hw : w ≠ 0) (hv : v < 2 ^ m) :
    Nat.size (w * 2 ^ m + v) = Nat.size w + m := by
  set s := Nat.size w with hs
  have hspos : 0 < s := Nat.size_pos.mpr (by omega)
  have hwup : w < 2 ^ s := Nat.size_le.mp (le_refl s)
  have hwlo : 2 ^ (s - 1) ≤ w := Nat.lt_size.mp (by omega)
  have hup : w * 2 ^ m + v < 2 ^ (s + m) := by
    have h1 : w * 2 ^ m + v < (w + 1) * 2 ^ m := by nlinarith
    have h2 : (w + 1) * 2 ^ m ≤ 2 ^ s * 2 ^ m := Nat.mul_le_mul_right _ (by omega)
    calc w * 2 ^ m + v < (w + 1) * 2 ^ m := h1
      _ ≤ 2 ^ s * 2 ^ m := h2
      _ = 2 ^ (s + m) := (pow_add 2 s m).symm
  have hlo : 2 ^ (s + m - 1) ≤ w * 2 ^ m + v := by
    have h1 : 2 ^ (s - 1) * 2 ^ m ≤ w * 2 ^ m := Nat.mul_le_mul_right _ hwlo
    have h2 : 2 ^ (s - 1) * 2 ^ m = 2 ^ (s + m - 1) := by
      rw [← pow_add]
      congr 1
      omega
    omega
  have h1 : Nat.size (w * 2 ^ m + v) ≤ s + m := Nat.size_le.mpr hup
  have h2 : s + m - 1 < Nat.size (w * 2 ^ m + v) := Nat.lt_size.mpr hlo
  omega

/-! ### Scorer lemmas -/

/-- On a list with fewer than four elements (or one not matching the 4-cons
pattern), `chunksExact4` yields no chunk. -/
theorem chunksExact4_eq_nil (t : List Nat)
    (h : ∀ (b0 b1 b2 b3 : Nat) (rest : List Nat), t = b0 :: b1 :: b2 :: b3 :: rest → False) :
    chunksExact4 t = [] := by
  rcases t with _ | ⟨a, _ | ⟨b, _ | ⟨c, _ | ⟨d, rest⟩⟩⟩⟩
  · rfl
  · rfl
  · rfl
  · rfl
  · exact absurd rfl (fun hh => h a b c d rest hh)

theorem chunksExact4_shape (b : List Nat) :
    ∀ c ∈ chunksExact4 b, ∃ b0 b1 b2 b3, c = [b0, b1, b2, b3] := by
  induction b using chunksExact4.induct with
  | case1 b0 b1 b2 b3 rest ih =>
    intro c hc
    rw [chunksExact4] at hc
    rcases List.mem_cons.mp hc with hc2 | hc2
    · exact ⟨b0, b1, b2, b3, hc2⟩
    · exact ih c hc2
  | case2 t h =>
    intro c hc
    rw [chunksExact4_eq_nil t h] at hc
    simp at hc

/-- With `4 ∣ length`, the chunks of `chunksExact4` reassemble the list. -/
theorem chunksExact4_join (b : List Nat) (h : 4 ∣ b.length) :
    (chunksExact4 b).flatten = b := by
  induction b using chunksExact4.induct with
  | case1 b0 b1 b2 b3 rest ih =>
    have hrest : 4 ∣ rest.length := by
      simp only [List.length_cons] at h
      omega
    rw [chunksExact4]
    simp [ih hrest]
  | case2 t h4 =>
    rw [chunksExact4_eq_nil t h4]
    rcases t with _ | ⟨a, _ | ⟨b, _ | ⟨c, _ | ⟨d, rest⟩⟩⟩⟩
    · rfl
    · simp at h
    · simp at h; omega
    · simp at h; omega
    · exact absurd rfl (fun hh => h4 a b c d rest hh)

theorem chunksExact4_length (b : List Nat) (h : 4 ∣ b.length) :
    (chunksExact4 b).length = b.length / 4 := by
  induction b using chunksExact4.induct with
  | case1 b0 b1 b2 b3 rest ih =>
    have hrest : 4 ∣ rest.length := by
      simp only [List.length_cons] at h
      omega
    rw [chunksExact4]
    simp only [List.length_cons, ih hrest]
    omega
  | case2 t h4 =>
    rw [chunksExact4_eq_nil t h4]
    rcases t with _ | ⟨a, _ | ⟨b, _ | ⟨c, _ | ⟨d, rest⟩⟩⟩⟩
    · rfl
    · simp at h
    · simp at h; omega
    · simp at h; omega
    · exact absurd rfl (fun hh => h4 a b c d rest hh)

/-- Bytes appearing in a chunk are bytes of the original list. -/
theorem chunksExact4_mem (b : List Nat) :
    ∀ c ∈ chunksExact4 b, ∀ x ∈ c, x ∈ b := by
  induction b using chunksExact4.induct with
  | case1 b0 b1 b2 b3 rest ih =>
    intro c hc x hx
    rw [chunksExact4] at hc
    rcases List.mem_cons.mp hc with hc2 | hc2
    · subst hc2
      simp only [List.mem_cons] at hx ⊢
      tauto
    · have := ih c hc2 x hx
      simp [this]
  | case2 t h =>
    intro c hc
    rw [chunksExact4_eq_nil t h] at hc
    simp at hc

theorem flatten_length_of_quads (cs : List (List Nat)) (h : ∀ c ∈ cs, c.length = 4) :
    cs.flatten.length = 4 * cs.length := by
  induction cs with
  | nil => simp
  | cons c cs ih =>
    have hc : c.length = 4 := h c (by simp)
    have ih' := ih fun d hd => h d (by simp [hd])
    simp only [List.flatten_cons, List.length_append, List.length_cons, hc, ih']
    ring

theorem u32FromBe_quad (b0 b1 b2 b3 : Nat) :
    u32FromBe [b0, b1, b2, b3] = some (beNat [b0, b1, b2, b3]) := by
  have h : beNat [b0, b1, b2, b3] = ((b0 * 256 + b1) * 256 + b2) * 256 + b3 := by
    simp only [beNat, List.length_cons, List.length_nil]
    ring
  rw [h]
  rfl

/-- The chunk loop computes `32·(number of words) − bitlength` of the
big-endian value of the reassembled bytes, shifted by the running count. -/
theorem lzLoop_spec (cs : List (List Nat)) : ∀ r : Nat,
    (∀ c ∈ cs, c.length = 4 ∧ ∀ x ∈ c, x < 256) →
    lzLoop cs r = some (r + (32 * cs.length - Nat.size (beNat cs.flatten))) := by
  induction cs with
  | nil => intro r _; simp [lzLoop, beNat, Nat.size_zero]
  | cons c cs ih =>
    intro r h
    obtain ⟨hlen, hbytes⟩ := h c (by simp)
    have hc4 : ∃ b0 b1 b2 b3, c = [b0, b1, b2, b3] := by
      rcases c with _ | ⟨b0, c⟩
      · simp at hlen
      rcases c with _ | ⟨b1, c⟩
      · simp at hlen
      rcases c with _ | ⟨b2, c⟩
      · simp at hlen
      rcases c with _ | ⟨b3, c⟩
      · simp at hlen
      rcases c with _ | ⟨b4, c⟩
      · exact ⟨b0, b1, b2, b3, rfl⟩
      · simp at hlen
    obtain ⟨b0, b1, b2, b3, rfl⟩ := hc4
    have hJbytes : ∀ x ∈ cs.flatten, x < 256 := by
      intro x hx
      obtain ⟨d, hd, hxd⟩ := List.mem_flatten.mp hx
      exact (h d (by simp [hd])).2 x hxd
    have hJquads : ∀ d ∈ cs, d.length = 4 := fun d hd => (h d (by simp [hd])).1
    have hJlen : cs.flatten.length = 4 * cs.length := flatten_length_of_quads cs hJquads
    have hJlt : beNat cs.flatten < 2 ^ (32 * cs.length) := by
      have := beNat_lt cs.flatten hJbytes
      rw [hJlen] at this
      calc beNat cs.flatten < 256 ^ (4 * cs.length) := this
        _ = 2 ^ (32 * cs.length) := by
            rw [show (256 : Nat) = 2 ^ 8 by norm_num, ← pow_mul]
            congr 1
            ring
    have hwlt : beNat [b0, b1, b2, b3] < 2 ^ 32 := by
      have := beNat_lt [b0, b1, b2, b3] hbytes
      norm_num at this
      omega
    have hclz : clz32 (beNat [b0, b1, b2, b3]) = 32 - Nat.size (beNat [b0, b1, b2, b3]) := by
      rw [clz32, size32_eq_size 32 _ hwlt]
    have hflat : beNat (([b0, b1, b2, b3] :: cs).flatten)
        = beNat [b0, b1, b2, b3] * 2 ^ (32 * cs.length) + beNat cs.flatten := by
      rw [List.flatten_cons, beNat_append, hJlen]
      congr 2
      rw [show (256 : Nat) = 2 ^ 8 by norm_num, ← pow_mul]
      congr 1
      ring
    rw [lzLoop, u32FromBe_quad]
    by_cases hw0 : beNat [b0, b1, b2, b3] = 0
    · have hz : ¬ clz32 (beNat [b0, b1, b2, b3]) < 32 := by
        rw [hclz, hw0, Nat.size_zero]
        omega
      simp only [hz, if_false]
      rw [ih (r + 32) fun d hd => h d (by simp [hd])]
      have hsz : Nat.size (beNat cs.flatten) ≤ 32 * cs.length := Nat.size_le.mpr hJlt
      rw [hflat, hw0]
      simp only [List.length_cons, Nat.zero_mul, Nat.zero_add]
      congr 1
      omega
    · have hspos : 0 < Nat.size (beNat [b0, b1, b2, b3]) := Nat.size_pos.mpr (by omega)
      have hsle : Nat.size (beNat [b0, b1, b2, b3]) ≤ 32 := Nat.size_le.mpr hwlt
      have hz : clz32 (beNat [b0, b1, b2, b3]) < 32 := by
        rw [hclz]
        omega
      simp only [hz, if_true]
      rw [hflat, size_mul_pow_add _ _ _ hw0 hJlt, hclz]
      simp only [List.length_cons]
      congr 1
      omega

/-- Bound form of the chunk loop along with totality for length-4 chunks. -/
theorem lzLoop_total (cs : List (List Nat)) : ∀ r : Nat,
    (∀ c ∈ cs, ∃ b0 b1 b2 b3, c = [b0, b1, b2, b3]) →
    ∃ v, lzLoop cs r = some v ∧ v ≤ r + 32 * cs.length := by
  induction cs with
  | nil => intro r _; exact ⟨r, rfl, by omega⟩
  | cons c cs ih =>
    intro r h
    obtain ⟨b0, b1, b2, b3, rfl⟩ := h c (by simp)
    rw [lzLoop, u32FromBe_quad]
    by_cases hz : clz32 (beNat [b0, b1, b2, b3]) < 32
    · refine ⟨r + clz32 (beNat [b0, b1, b2, b3]), by simp [hz], ?_⟩
      simp only [List.length_cons]
      have := clz32_le (beNat [b0, b1, b2, b3])
      omega
    · simp only [hz, if_false]
      obtain ⟨v, hv, hvle⟩ := ih (r + 32) fun d hd => h d (by simp [hd])
      refine ⟨v, hv, ?_⟩
      simp only [List.length_cons]
      omega

/-- `leading_zeros` on a 20-byte address is total and bounded by 160. -/
theorem leading_zeros_total (b : List Nat) (hlen : b.length = 20) :
    ∃ v, leading_zeros b = some v ∧ v ≤ 160 := by
  have h4 : (4 : Nat) ∣ b.length := by rw [hlen]; exact ⟨5, rfl⟩
  have hcl : (chunksExact4 b).length = 5 := by rw [chunksExact4_length b h4, hlen]
  obtain ⟨v, hv, hvle⟩ := lzLoop_total (chunksExact4 b) 0 (chunksExact4_shape b)
  refine ⟨v, hv, ?_⟩
  rw [hcl] at hvle
  omega

/-- `leading_zeros` computes `160 − bitlength` of the address value. -/
theorem leading_zeros_eq (b : List Nat) (hlen : b.length = 20) (hb : ∀ x ∈ b, x < 256) :
    leading_zeros b = some (160 - Nat.size (beNat b)) := by
  have h4 : (4 : Nat) ∣ b.length := by rw [hlen]; exact ⟨5, rfl⟩
  have hvalid : ∀ c ∈ chunksExact4 b, c.length = 4 ∧ ∀ x ∈ c, x < 256 := by
    intro c hc
    obtain ⟨b0, b1, b2, b3, rfl⟩ := chunksExact4_shape b c hc
    exact ⟨rfl, fun x hx => hb x (chunksExact4_mem b _ hc x hx)⟩
  have hjoin := chunksExact4_join b h4
  have hlen5 : (chunksExact4 b).length = 5 := by rw [chunksExact4_length b h4, hlen]
  rw [leading_zeros, lzLoop_spec _ 0 hvalid, hjoin, hlen5]
  norm_num

/-! ### Shape of derived values -/

theorem pow256_as_pow2 (n : Nat) : (256 : Nat) ^ n = 2 ^ (8 * n) := by
  rw [show (256 : Nat) = 2 ^ 8 by norm_num, ← pow_mul]

theorem keccak256_length (msg : List Nat) : (keccak256 msg).length = 32 := by
  simp [keccak256]

theorem keccak256_bytes (msg : List Nat) : ∀ x ∈ keccak256 msg, x < 256 := by
  intro x hx
  simp only [keccak256, List.mem_map, List.mem_range] at hx
  obtain ⟨i, _, rfl⟩ := hx
  exact Nat.mod_lt _ (by norm_num)

theorem create2_length (sender salt ich : List Nat) : (create2 sender salt ich).length = 20 := by
  simp [create2, keccak256_length]

theorem create2_bytes (sender salt ich : List Nat) : ∀ x ∈ create2 sender salt ich, x < 256 :=
  fun x hx => keccak256_bytes _ x (List.mem_of_mem_drop hx)

theorem tokenAddress_length (initcode salt : List Nat) :
    (tokenAddress initcode salt).length = 20 := create2_length _ _ _

theorem tokenAddress_bytes (initcode salt : List Nat) :
    ∀ x ∈ tokenAddress initcode salt, x < 256 := create2_bytes _ _ _

theorem pairAddress_length (initcode salt : List Nat) :
    (pairAddress initcode salt).length = 20 := create2_length _ _ _

theorem pairAddress_bytes (initcode salt : List Nat) :
    ∀ x ∈ pairAddress initcode salt, x < 256 := create2_bytes _ _ _

/-! ### Claim C1: the scorer counts leading zero bits -/

/-- **C1**: for every 20-byte address, `leading_zeros` (which processes the
address as five 32-bit big-endian words, adding 32 per all-zero word and
stopping at the first nonzero word) returns the count of leading zero bits of
the big-endian 160-bit value: `160 - bitlength`; in particular 160 for the
zero address, 0 when the first bit is 1, and `k` for a value with exactly `k`
leading zero bits followed by a 1 bit. -/
theorem C1_scorer_counts_leading_zero_bits (b : List Nat) (hlen : b.length = 20)
    (hb : ∀ x ∈ b, x < 256) :
    leading_zeros b = some (160 - Nat.size (beNat b)) ∧
    (beNat b = 0 → leading_zeros b = some 160) ∧
    (2 ^ 159 ≤ beNat b → leading_zeros b = some 0) ∧
    (∀ k, k < 160 → 2 ^ (159 - k) ≤ beNat b → beNat b < 2 ^ (160 - k) →
      leading_zeros b = some k) := by
  have h := leading_zeros_eq b hlen hb
  have hub : beNat b < 2 ^ 160 := by
    have hx := beNat_lt b hb
    rw [hlen, pow256_as_pow2] at hx
    simpa using hx
  refine ⟨h, ?_, ?_, ?_⟩
  · intro h0
    rw [h, h0, Nat.size_zero]
  · intro h159
    have hsz : Nat.size (beNat b) = 160 := by
      have h1 : Nat.size (beNat b) ≤ 160 := Nat.size_le.mpr hub
      have h2 : 159 < Nat.size (beNat b) := Nat.lt_size.mpr h159
      omega
    rw [h, hsz]
  · intro k hk hlo hup
    have hsz : Nat.size (beNat b) = 160 - k := by
      have h1 : Nat.size (beNat b) ≤ 160 - k := Nat.size_le.mpr hup
      have h2 : 159 - k < Nat.size (beNat b) := Nat.lt_size.mpr hlo
      omega
    rw [h, hsz]
    congr 1
    omega

/-- Witness for C1 at the all-zero address. -/
theorem C1_witness : leading_zeros (List.replicate 20 0) = some 160 :=
  (C1_scorer_counts_leading_zero_bits (List.replicate 20 0) (by simp)
    (fun x hx => by simp at hx; omega)).2.1 (by decide)

/-! ### Claim C9: the scorer is total on 20-byte addresses -/

/-- **C9**: on every 20-byte input the scorer returns `some v` with
`v ≤ 160`; in particular the score of a derived pair address is never `none`,
so the worker's `?` on the scorer's result can never end a worker without a
result. -/
theorem C9_scorer_total :
    (∀ b : List Nat, b.length = 20 → ∃ v, leading_zeros b = some v ∧ v ≤ 160) ∧
    (∀ initcode salt : List Nat, (leading_zeros (pairAddress initcode salt)).isSome = true) := by
  refine ⟨fun b hb => leading_zeros_total b hb, fun initcode salt => ?_⟩
  obtain ⟨v, hv, _⟩ := leading_zeros_total _ (pairAddress_length initcode salt)
  rw [hv]
  rfl

/-- Witness for C9: a concrete 20-byte address and a concrete pipeline input. -/
theorem C9_witness :
    (∃ v, leading_zeros (List.replicate 20 7) = some v ∧ v ≤ 160) ∧
    (leading_zeros (pairAddress zero32 zero32)).isSome = true :=
  ⟨C9_scorer_total.1 (List.replicate 20 7) (by simp), C9_scorer_total.2 zero32 zero32⟩

/-! ### Claim C3: targets above 160 pass the pre-spawn checks -/

/-- **C3** (supporting the spec's intent against the code): the only
pre-spawn validation is the argument-count check, which passes for any three
arguments whatever the target value, and a target of 161 can never be matched
by any worker on any salt, since every score is at most 160.  The program
therefore spawns workers that search forever instead of rejecting
`target > 160` before spawning. -/
theorem C3_target_161_passes_checks_but_never_matches :
    argCountOk 3 = true ∧
    (∀ initcode salt : List Nat, accepted initcode salt 161 = false) := by
  refine ⟨rfl, fun initcode salt => ?_⟩
  obtain ⟨v, hv, hle⟩ := leading_zeros_total _ (pairAddress_length initcode salt)
  simp only [accepted, hv]
  exact beq_eq_false_iff_ne.mpr (by simp; omega)

/-- The loop body when the scorer yields a value. -/
theorem scanStep_some (initcode : List Nat) (target i k v : Nat) (next : Option Cand)
    (hv : leading_zeros (pairAddress initcode (saltAt i k)) = some v) :
    scanStep initcode target i k next =
      if v = target then some (candAt initcode i k) else next := by
  rw [scanStep, hv]
  rfl

/-- One unfolding step of the worker loop. -/
theorem scan_succ (initcode : List Nat) (target i k fuel : Nat) :
    scan initcode target i k (fuel + 1) =
      scanStep initcode target i k (scan initcode target i (k + 1) fuel) := by
  rw [scan]

/-- One unfolding step of the worker loop when the scorer yields a value. -/
theorem scan_succ_some (initcode : List Nat) (target i k fuel v : Nat)
    (hv : leading_zeros (pairAddress initcode (saltAt i k)) = some v) :
    scan initcode target i k (fuel + 1) =
      if v = target then some (candAt initcode i k)
      else scan initcode target i (k + 1) fuel := by
  rw [scan_succ, scanStep_some initcode target i k v _ hv]

/-! ### Claim C2: acceptance is exact equality of score and target -/

/-- **C2**: a worker accepts a salt (and produces a candidate) exactly when
the derived pair address scores exactly the target; a pair address scoring
strictly more than the target is not accepted, and the worker's loop steps on
to the next salt. -/
theorem C2_accept_iff_exact_score (initcode : List Nat) (target : Nat) :
    (∀ salt, accepted initcode salt target = true ↔
      leading_zeros (pairAddress initcode salt) = some target) ∧
    (∀ salt z, leading_zeros (pairAddress initcode salt) = some z → target < z →
      accepted initcode salt target = false) ∧
    (∀ i k fuel, accepted initcode (saltAt i k) target = true →
      scan initcode target i k (fuel + 1) = some (candAt initcode i k)) ∧
    (∀ i k fuel, accepted initcode (saltAt i k) target = false →
      scan initcode target i k (fuel + 1) = scan initcode target i (k + 1) fuel) := by
  refine ⟨fun salt => ?_, fun salt z hz hlt => ?_, fun i k fuel hacc => ?_, fun i k fuel hacc => ?_⟩
  · rw [accepted]
    exact beq_iff_eq
  · rw [accepted]
    refine beq_eq_false_iff_ne.mpr ?_
    rw [hz]
    simp only [ne_eq, Option.some.injEq]
    omega
  · have hlz : leading_zeros (pairAddress initcode (saltAt i k)) = some target :=
      beq_iff_eq.mp (by rwa [accepted] at hacc)
    rw [scan_succ_some initcode target i k fuel target hlz, if_pos rfl]
  · obtain ⟨v, hv, _⟩ := leading_zeros_total _ (pairAddress_length initcode (saltAt i k))
    rw [accepted] at hacc
    have hne : v ≠ target := by
      intro h
      rw [hv, h] at hacc
      simp at hacc
    rw [scan_succ_some initcode target i k fuel v hv, if_neg hne]

/-- Witness for C2 with the all-zero initcode hash and target 0: worker 0's
first salt is accepted (score 0), worker 3's first salt scores 1 > 0 and is
rejected, and its loop steps to the next salt. -/
theorem C2_witness :
    (accepted zero32 (saltAt 0 0) 0 = true ↔
      leading_zeros (pairAddress zero32 (saltAt 0 0)) = some 0) ∧
    accepted zero32 (saltAt 3 0) 0 = false ∧
    scan zero32 0 0 0 1 = some (candAt zero32 0 0) ∧
    scan zero32 0 3 0 1 = scan zero32 0 3 1 0 :=
  ⟨(C2_accept_iff_exact_score zero32 0).1 (saltAt 0 0),
   (C2_accept_iff_exact_score zero32 0).2.1 (saltAt 3 0) 1 (by decide) (by decide),
   (C2_accept_iff_exact_score zero32 0).2.2.1 0 0 0 (by decide),
   (C2_accept_iff_exact_score zero32 0).2.2.2 3 0 0 (by decide)⟩

/-! ### Salt state lemmas -/

theorem beNat_be8 (w : Nat) : beNat (be8 w) = w % 2 ^ 64 := by
  simp only [be8, beNat, List.length_cons, List.length_nil]
  norm_num
  omega

theorem be8_length (w : Nat) : (be8 w).length = 8 := rfl

theorem be8_bytes (w : Nat) : ∀ x ∈ be8 w, x < 256 := by
  intro x hx
  simp only [be8, List.mem_cons, List.not_mem_nil, or_false] at hx
  rcases hx with h | h | h | h | h | h | h | h <;>
    · subst h
      exact Nat.mod_lt _ (by norm_num)

/-- Closed form of the salt sequence: worker `i`'s salt at iteration `k` is 24
zero bytes followed by the big-endian bytes of `(i + 8·k) mod 2^64`. -/
theorem saltAt_closed (i : Nat) : ∀ k : Nat,
    saltAt i k = List.replicate 24 0 ++ be8 ((i + 8 * k) % 2 ^ 64) := by
  intro k
  have hrep : (List.replicate 24 (0 : Nat)).length = 24 := by simp
  have hM : (2 : Nat) ^ 64 = 18446744073709551616 := by norm_num
  induction k with
  | zero =>
    show writeLow8 zero32 (i % 2 ^ 64) = _
    rw [writeLow8, zero32]
    have h1 : (List.replicate 32 (0 : Nat)).take 24 = List.replicate 24 0 := by
      rw [List.take_replicate]
      norm_num
    rw [h1]
    congr 2
    rw [hM]
    omega
  | succ k ih =>
    show saltStep (saltAt i k) = _
    rw [saltStep, ih, writeLow8, List.take_left' hrep, List.drop_left' hrep, beNat_be8]
    congr 2
    rw [show N_THREADS = 8 from rfl, hM]
    omega

theorem saltAt_length (i k : Nat) : (saltAt i k).length = 32 := by
  rw [saltAt_closed]
  simp [be8]

theorem saltAt_take (i k : Nat) : (saltAt i k).take 24 = List.replicate 24 0 := by
  rw [saltAt_closed]
  exact List.take_left' (by simp)

theorem saltAt_word (i k : Nat) : beNat ((saltAt i k).drop 24) = (i + 8 * k) % 2 ^ 64 := by
  rw [saltAt_closed, List.drop_left' (by simp), beNat_be8]
  exact Nat.mod_mod_of_dvd _ (dvd_refl _)

theorem saltAt_mod8 (i k : Nat) (hi : i < 8) : beNat ((saltAt i k).drop 24) % 8 = i := by
  rw [saltAt_word]
  have h8 : (8 : Nat) ∣ 2 ^ 64 := ⟨2 ^ 61, by norm_num⟩
  rw [Nat.mod_mod_of_dvd _ h8, Nat.add_mul_mod_self_left, Nat.mod_eq_of_lt hi]

/-- Two distinct workers below the thread count never produce the same salt. -/
theorem saltAt_disjoint (i j k l : Nat) (hi : i < 8) (hj : j < 8) (hne : i ≠ j) :
    saltAt i k ≠ saltAt j l := by
  intro h
  have h1 := saltAt_mod8 i k hi
  have h2 := saltAt_mod8 j l hj
  rw [h] at h1
  exact hne (h1.symm.trans h2)

/-! ### Claim C4: the salt stride partitions the search space -/

/-- **C4**: worker `i < 8` starts from a salt with `i` big-endian in the low
8 bytes and zero elsewhere; over its first `K` iterations the low 64 bits of
its salts are exactly `i, i+8, i+2·8, …, i+(K−1)·8` under wrapping 64-bit
addition, and no two distinct workers ever examine the same salt. -/
theorem C4_salt_stride_partition (i : Nat) (hi : i < 8) (K : Nat) :
    saltAt i 0 = List.replicate 24 0 ++ be8 i ∧
    ((List.range K).map fun k => beNat ((saltAt i k).drop 24)) =
      ((List.range K).map fun k => (i + k * 8) % 2 ^ 64) ∧
    ∀ j k l, j < 8 → i ≠ j → saltAt i k ≠ saltAt j l := by
  refine ⟨?_, ?_, fun j k l hj hne => saltAt_disjoint i j k l hi hj hne⟩
  · rw [saltAt_closed]
    congr 2
    have hM : (2 : Nat) ^ 64 = 18446744073709551616 := by norm_num
    rw [hM]
    omega
  · refine List.map_congr_left fun k _ => ?_
    rw [saltAt_word, Nat.mul_comm]

/-- Witness for C4 at worker 0. -/
theorem C4_witness :
    saltAt 0 0 = List.replicate 24 0 ++ be8 0 ∧
    ((List.range 3).map fun k => beNat ((saltAt 0 k).drop 24)) =
      ((List.range 3).map fun k => (0 + k * 8) % 2 ^ 64) ∧
    saltAt 0 5 ≠ saltAt 7 9 :=
  ⟨(C4_salt_stride_partition 0 (by decide) 3).1,
   (C4_salt_stride_partition 0 (by decide) 3).2.1,
   (C4_salt_stride_partition 0 (by decide) 3).2.2 7 5 9 (by decide) (by decide)⟩

/-! ### Claim C10: only the low 8 salt bytes are ever written -/

/-- Any candidate a worker returns was produced at some iteration. -/
theorem scan_result (initcode : List Nat) (target i : Nat) :
    ∀ fuel k c, scan initcode target i k fuel = some c → ∃ m, c = candAt initcode i m := by
  intro fuel
  induction fuel with
  | zero =>
    intro k c h
    rw [scan] at h
    exact Option.noConfusion h
  | succ fuel ih =>
    intro k c h
    obtain ⟨v, hv, _⟩ := leading_zeros_total _ (pairAddress_length initcode (saltAt i k))
    rw [scan_succ, scanStep_some initcode target i k v _ hv] at h
    by_cases hvt : v = target
    · rw [if_pos hvt] at h
      exact ⟨k, (Option.some_inj.mp h).symm⟩
    · rw [if_neg hvt] at h
      exact ih (k + 1) c h

/-- **C10**: at every iteration of every worker the first 24 salt bytes are
zero (only the last 8 bytes are ever written, at initialization and at each
stride advance), so every candidate returned by any worker has a salt whose
first 24 bytes are zero. -/
theorem C10_salt_frame :
    (∀ i k, (saltAt i k).take 24 = List.replicate 24 0 ∧ (saltAt i k).length = 32) ∧
    (∀ initcode : List Nat, ∀ target i cutoff : Nat, ∀ c : Cand,
      workerRun initcode target i cutoff = some c →
      c.salt.take 24 = List.replicate 24 0 ∧ c.salt.length = 32) := by
  refine ⟨fun i k => ⟨saltAt_take i k, saltAt_length i k⟩, ?_⟩
  intro initcode target i cutoff c h
  obtain ⟨m, rfl⟩ := scan_result initcode target i _ 0 c h
  exact ⟨saltAt_take i m, saltAt_length i m⟩

/-- Witness for C10: worker 0's actual first candidate (all-zero initcode
hash, target 0). -/
theorem C10_witness :
    (Cand.mk (List.replicate 32 0)
      [119, 138, 69, 144, 242, 13, 176, 194, 60, 183, 193, 190, 252, 141, 160, 69, 73, 242, 170, 149]
      [172, 149, 122, 174, 29, 75, 5, 147, 92, 173, 145, 110, 126, 48, 1, 237, 4, 173, 139, 83]).salt.take 24
        = List.replicate 24 0 ∧
    (Cand.mk (List.replicate 32 0)
      [119, 138, 69, 144, 242, 13, 176, 194, 60, 183, 193, 190, 252, 141, 160, 69, 73, 242, 170, 149]
      [172, 149, 122, 174, 29, 75, 5, 147, 92, 173, 145, 110, 126, 48, 1, 237, 4, 173, 139, 83]).salt.length = 32 :=
  C10_salt_frame.2 zero32 0 0 1 _ (by decide)

/-! ### Claim C5: pair ordering -/

/-- **C5** counterexample: at the one 20-byte input equal to the WETH
constant itself, the ordering step yields `(WETH, WETH)` and `token0 <
token1` fails (the source's `else` branch pairs WETH with itself). -/
theorem C5_counterexample :
    ¬ beNat (sortTokens WETH).1 < beNat (sortTokens WETH).2 := by decide

/-- **C5** amended: the ordering step sorts the token address and the WETH
constant ascending as unsigned 160-bit integers — the pair is `{t, WETH}`
with `token0 ≤ token1`, and `token0 < token1` strictly whenever the derived
token address differs from the WETH constant (equality of the two tokens is
possible only in that degenerate case). -/
theorem C5_pair_ordering (t : List Nat) (hlen : t.length = 20) (hb : ∀ x ∈ t, x < 256) :
    beNat (sortTokens t).1 ≤ beNat (sortTokens t).2 ∧
    (t ≠ WETH → beNat (sortTokens t).1 < beNat (sortTokens t).2) ∧
    ((sortTokens t).1 = t ∧ (sortTokens t).2 = WETH ∨
      (sortTokens t).1 = WETH ∧ (sortTokens t).2 = t) := by
  have hWlen : WETH.length = 20 := rfl
  have hWb : ∀ x ∈ WETH, x < 256 := by decide
  have hbl := bytesLt_eq_decide t WETH (by rw [hlen, hWlen]) hb hWb
  rw [sortTokens]
  by_cases h : bytesLt t WETH = true
  · rw [if_pos h]
    rw [hbl] at h
    have hlt : beNat t < beNat WETH := of_decide_eq_true h
    exact ⟨le_of_lt hlt, fun _ => hlt, Or.inl ⟨rfl, rfl⟩⟩
  · rw [if_neg h]
    have hnlt : ¬ beNat t < beNat WETH := by
      intro hc
      exact h (hbl.trans (decide_eq_true hc))
    refine ⟨by simpa using Nat.le_of_not_lt hnlt, fun hne => ?_, Or.inr ⟨rfl, rfl⟩⟩
    have hle : beNat WETH ≤ beNat t := Nat.le_of_not_lt hnlt
    rcases Nat.lt_or_ge (beNat WETH) (beNat t) with hlt | hge
    · simpa using hlt
    · exfalso
      have heq : beNat t = beNat WETH := by omega
      exact hne (beNat_inj t WETH (by rw [hlen, hWlen]) hb hWb heq)

/-- Witness for the amended C5 at the all-zero token address. -/
theorem C5_witness :
    beNat (sortTokens (List.replicate 20 0)).1 < beNat (sortTokens (List.replicate 20 0)).2 :=
  (C5_pair_ordering (List.replicate 20 0) (by simp)
    (fun x hx => by simp at hx; omega)).2.1 (by decide)

/-! ### Coordinator minimum lemmas -/

/-- Salt well-formedness: a 32-byte salt with byte values. -/
def saltWf (c : Cand) : Prop := c.salt.length = 32 ∧ ∀ x ∈ c.salt, x < 256

theorem candLt_true_salt_le (a b : Cand) (ha : saltWf a) (hb : saltWf b)
    (h : candLt a b = true) : beNat a.salt ≤ beNat b.salt := by
  rw [candLt, Bool.or_eq_true] at h
  rcases h with h | h
  · rw [bytesLt_eq_decide a.salt b.salt (by rw [ha.1, hb.1]) ha.2 hb.2] at h
    exact le_of_lt (of_decide_eq_true h)
  · rw [Bool.and_eq_true] at h
    rw [beq_iff_eq.mp h.1]

theorem candLt_false_salt_le (a b : Cand) (ha : saltWf a) (hb : saltWf b)
    (h : candLt a b = false) : beNat b.salt ≤ beNat a.salt := by
  rw [candLt, Bool.or_eq_false_iff] at h
  have h1 := h.1
  rw [bytesLt_eq_decide a.salt b.salt (by rw [ha.1, hb.1]) ha.2 hb.2] at h1
  exact Nat.le_of_not_lt (of_decide_eq_false h1)

theorem minFrom_mem (cs : List Cand) : ∀ m : Cand, minFrom m cs ∈ m :: cs := by
  induction cs with
  | nil => intro m; rw [minFrom]; exact List.mem_cons_self m []
  | cons c cs ih =>
    intro m
    rw [minFrom]
    by_cases hc : candLt c m = true
    · rw [if_pos hc]
      exact List.mem_cons_of_mem m (ih c)
    · rw [if_neg hc]
      rcases List.mem_cons.mp (ih m) with h1 | h1
      · rw [h1]
        exact List.mem_cons_self _ _
      · exact List.mem_cons_of_mem _ (List.mem_cons_of_mem _ h1)

theorem minFrom_salt_le (cs : List Cand) : ∀ m : Cand, saltWf m → (∀ c ∈ cs, saltWf c) →
    ∀ e ∈ m :: cs, beNat (minFrom m cs).salt ≤ beNat e.salt := by
  induction cs with
  | nil =>
    intro m _ _ e he
    rcases List.mem_cons.mp he with h | h
    · rw [minFrom, h]
    · simp at h
  | cons c cs ih =>
    intro m hm hcs e he
    have hcWf : saltWf c := hcs c (by simp)
    have hcs' : ∀ x ∈ cs, saltWf x := fun x hx => hcs x (by simp [hx])
    by_cases h : candLt c m = true
    · have ihAll := ih c hcWf hcs'
      rw [minFrom, if_pos h]
      rcases List.mem_cons.mp he with he1 | he1
      · calc beNat (minFrom c cs).salt ≤ beNat c.salt := ihAll c (by simp)
          _ ≤ beNat m.salt := candLt_true_salt_le c m hcWf hm h
          _ = beNat e.salt := by rw [he1]
      · rcases List.mem_cons.mp he1 with he2 | he2
        · rw [he2]
          exact ihAll c (by simp)
        · exact ihAll e (by simp [he2])
    · have hfalse : candLt c m = false := by simpa using h
      have ihAll := ih m hm hcs'
      rw [minFrom, if_neg h]
      rcases List.mem_cons.mp he with he1 | he1
      · rw [he1]
        exact ihAll m (by simp)
      · rcases List.mem_cons.mp he1 with he2 | he2
        · calc beNat (minFrom m cs).salt ≤ beNat m.salt := ihAll m (by simp)
            _ ≤ beNat c.salt := candLt_false_salt_le c m hcWf hm hfalse
            _ = beNat e.salt := by rw [he2]
        · exact ihAll e (by simp [he2])

/-! ### Claim C6: the coordinator returns the minimum-salt candidate -/

/-- **C6**: on any nonempty list of collected `Found` candidates (with
well-formed 32-byte salts) the coordinator's `min` returns a member of the
list whose salt is minimal in the byte-lexicographic order, which on 32-byte
salts coincides with the unsigned big-endian numeric order; when salts are
pairwise distinct it is the unique salt-minimal candidate. -/
theorem C6_coordinator_min_salt (l : List Cand)
    (hwf : ∀ c ∈ l, saltWf c) :
    (l ≠ [] → (minCand l).isSome = true) ∧
    (∀ m, minCand l = some m →
      m ∈ l ∧ (∀ c ∈ l, beNat m.salt ≤ beNat c.salt) ∧
      ((∀ a ∈ l, ∀ b ∈ l, a ≠ b → a.salt ≠ b.salt) →
        ∀ c ∈ l, c ≠ m → beNat m.salt < beNat c.salt)) := by
  constructor
  · intro hne
    cases l with
    | nil => exact absurd rfl hne
    | cons c cs => rw [minCand]; rfl
  · intro m hm
    cases l with
    | nil => exact Option.noConfusion hm
    | cons c cs =>
      rw [minCand, Option.some_inj] at hm
      subst hm
      have hmem : minFrom c cs ∈ c :: cs := minFrom_mem cs c
      have hle : ∀ e ∈ c :: cs, beNat (minFrom c cs).salt ≤ beNat e.salt :=
        minFrom_salt_le cs c (hwf c (by simp)) (fun x hx => hwf x (by simp [hx]))
      refine ⟨hmem, hle, fun hdist e he hne => ?_⟩
      have h1 : beNat (minFrom c cs).salt ≤ beNat e.salt := hle e he
      rcases Nat.lt_or_ge (beNat (minFrom c cs).salt) (beNat e.salt) with hlt | hge
      · exact hlt
      · exfalso
        have heq : beNat (minFrom c cs).salt = beNat e.salt := by omega
        have hsalts : (minFrom c cs).salt = e.salt := by
          have hwm := hwf _ hmem
          have hwe := hwf e he
          exact beNat_inj _ _ (by rw [hwm.1, hwe.1]) hwm.2 hwe.2 heq
        exact hdist e he _ hmem hne hsalts.symm

/-- Witness for C6 on a concrete two-candidate list. -/
theorem C6_witness :
    Cand.mk (List.replicate 31 0 ++ [5]) [] [] ∈
        [Cand.mk (List.replicate 32 1) [] [], Cand.mk (List.replicate 31 0 ++ [5]) [] []] ∧
      beNat (Cand.mk (List.replicate 31 0 ++ [5]) [] []).salt ≤
        beNat (Cand.mk (List.replicate 32 1) [] []).salt ∧
      beNat (Cand.mk (List.replicate 31 0 ++ [5]) [] []).salt <
        beNat (Cand.mk (List.replicate 32 1) [] []).salt := by
  have h := (C6_coordinator_min_salt
    [Cand.mk (List.replicate 32 1) [] [], Cand.mk (List.replicate 31 0 ++ [5]) [] []]
    (by
      intro c hc
      simp only [List.mem_cons, List.not_mem_nil, or_false] at hc
      rcases hc with h | h <;> (subst h; exact ⟨by decide, by decide⟩))).2
    (Cand.mk (List.replicate 31 0 ++ [5]) [] []) (by decide)
  exact ⟨h.1, h.2.1 _ (by simp), h.2.2 (by decide) _ (by simp) (by decide)⟩

/-! ### Claim C8: empty result set is fatal -/

/-- **C8**: the coordinator's final `results.into_iter().min()` is `none`
exactly when the collected result list is empty, and on `none` the trailing
`.unwrap()` panics: the process aborts instead of returning a triple. -/
theorem C8_empty_results_fatal (l : List Cand) : minCand l = none ↔ l = [] := by
  cases l with
  | nil => simp [minCand]
  | cons c cs => simp [minCand]

/-! ### Claim C7: determinism across schedules -/

/-- A worker that returns a result returns the same result whatever its
cancellation cutoff: its earliest match. -/
theorem scan_some_unique (initcode : List Nat) (target i : Nat) :
    ∀ f1, ∀ f2 k c1 c2, scan initcode target i k f1 = some c1 →
      scan initcode target i k f2 = some c2 → c1 = c2 := by
  intro f1
  induction f1 with
  | zero =>
    intro f2 k c1 c2 h1 _
    rw [scan] at h1
    exact Option.noConfusion h1
  | succ g ih =>
    intro f2 k c1 c2 h1 h2
    obtain ⟨v, hv, _⟩ := leading_zeros_total _ (pairAddress_length initcode (saltAt i k))
    cases f2 with
    | zero =>
      rw [scan] at h2
      exact Option.noConfusion h2
    | succ g2 =>
      rw [scan_succ, scanStep_some initcode target i k v _ hv] at h1 h2
      by_cases hvt : v = target
      · rw [if_pos hvt] at h1 h2
        rw [← Option.some_inj.mp h1, ← Option.some_inj.mp h2]
      · rw [if_neg hvt] at h1 h2
        exact ih g2 (k + 1) c1 c2 h1 h2

theorem workerRun_some_eq (initcode : List Nat) (target i a b : Nat)
    (ha : (workerRun initcode target i a).isSome = true)
    (hb : (workerRun initcode target i b).isSome = true) :
    workerRun initcode target i a = workerRun initcode target i b := by
  rcases Option.isSome_iff_exists.mp ha with ⟨c1, hc1⟩
  rcases Option.isSome_iff_exists.mp hb with ⟨c2, hc2⟩
  rw [hc1, hc2, scan_some_unique initcode target i _ _ 0 c1 c2 hc1 hc2]

theorem filterMap_congr_mem {α β : Type} (l : List α) (f g : α → Option β)
    (h : ∀ a ∈ l, f a = g a) : l.filterMap f = l.filterMap g := by
  induction l with
  | nil => rfl
  | cons a l ih =>
    rw [List.filterMap_cons, List.filterMap_cons, h a (by simp),
      ih fun x hx => h x (by simp [hx])]

/-- **C7** amended: two full runs whose schedules let every worker run
uncancelled until it finds its own match (no worker observes the flag before
reaching its earliest match) return the same final candidate; in general,
which candidates are found — and hence the final triple — depends on when
each worker first observes the cancellation flag, see the counterexample. -/
theorem C7_deterministic_when_uncancelled (initcode : List Nat) (target : Nat)
    (s1 s2 : List Nat)
    (h1 : ∀ i, i < 8 → (workerRun initcode target i (s1.getD i 0)).isSome = true)
    (h2 : ∀ i, i < 8 → (workerRun initcode target i (s2.getD i 0)).isSome = true) :
    runModel initcode target s1 = runModel initcode target s2 :=
  congrArg minCand (filterMap_congr_mem (List.range N_THREADS) _ _ fun i hi =>
    workerRun_some_eq initcode target i _ _
      (h1 i (List.mem_range.mp hi)) (h2 i (List.mem_range.mp hi)))

/-- A concrete initcode hash for which, at target 0, every worker finds a
match at its very first salt. -/
def initEx : List Nat := List.replicate 31 0 ++ [224]

set_option maxHeartbeats 40000000 in
/-- Witness for the amended C7: two schedules that differ in worker 0's
cutoff but both let every worker reach its first match. -/
theorem C7_witness :
    runModel initEx 0 [1, 1, 1, 1, 1, 1, 1, 1] = runModel initEx 0 [2, 1, 1, 1, 1, 1, 1, 1] :=
  C7_deterministic_when_uncancelled initEx 0 _ _ (by decide) (by decide)

set_option maxHeartbeats 40000000 in
/-- **C7** counterexample: with the initcode hash `initEx` and target 0, two
realizable schedules return different final triples.  Under
`[1, 1, 1, 1, 1, 1, 1, 1]` every worker completes its first batch and finds
its own first match (all eight matches lie at iteration 0 of batch 0), and
the minimum is worker 0's salt-0 candidate.  Under `[0, 1, 0, 0, 0, 0, 0, 0]`
worker 1 runs to completion first and every other thread starts only after
the flag is already set, so the run returns worker 1's salt-1 candidate
instead. -/
theorem C7_counterexample :
    validSchedule initEx 0 [1, 1, 1, 1, 1, 1, 1, 1] = true ∧
    validSchedule initEx 0 [0, 1, 0, 0, 0, 0, 0, 0] = true ∧
    runModel initEx 0 [1, 1, 1, 1, 1, 1, 1, 1] ≠ runModel initEx 0 [0, 1, 0, 0, 0, 0, 0, 0] :=
  ⟨by decide, by decide, by decide⟩
